import Mathlib

/-!
# Verification of the shapelet basis-evaluation engine

This file gives a shallow embedding of the core of the `lsst shapelet`
library: the `PackedIndex` combinatorial iterator (embedded directly from
its inline C++ implementation), and models of the `HermiteEvaluator` and
`ModelBuilder` components whose method bodies are not part of the given
headers (those models are built from the specification and are marked
`Modelled from the spec:` in their doc comments).

Machine integers (`int` fields of `PackedIndex`) are embedded as `ℤ`;
floating-point quantities are embedded as `ℝ`.
-/

namespace Shapelet

/-! ## Natural-number indexing scaffolding

`offsetN`/`indexN` are the ℕ-valued counterparts of the C++
`PackedIndex::computeOffset` / `computeIndex` static functions
(`computeOffset(order) = order*(order+1)/2`,
`computeIndex(x,y) = computeOffset(x+y) + x`). -/

/-- ℕ version of `PackedIndex::computeOffset`: `order*(order+1)/2`. -/
def offsetN (order : ℕ) : ℕ := order * (order + 1) / 2

/-- ℕ version of `PackedIndex::computeIndex`: `offsetN (x+y) + x`. -/
def indexN (x y : ℕ) : ℕ := offsetN (x + y) + x

/-- The packed size of a basis of order `N`: `(N+1)*(N+2)/2` entries. -/
def packedSize (N : ℕ) : ℕ := (N + 1) * (N + 2) / 2

/-- The inverse of `indexN`: the pair `(x, y)` visited at step `k` of the
packed enumeration.  Mirrors the advancement rule of
`PackedIndex::operator++`: within an order the pair moves from `(x, y)` to
`(x+1, y-1)`, and from `(x, 0)` it rolls over to `(0, x+1)`. -/
def unpack : ℕ → ℕ × ℕ
  | 0 => (0, 0)
  | k + 1 =>
    let p := unpack k
    if p.2 = 0 then (0, p.1 + 1) else (p.1 + 1, p.2 - 1)

/-! ## PackedIndex, embedded from the source

```cpp
class PackedIndex {
  static int const computeOffset(int order) { return order*(order+1)/2; }
  static int const computeIndex(int x, int y) { return computeOffset(x+y) + x; }
  PackedIndex & operator++() {
    ++_i;
    if (--_y < 0) { _x = 0; _y = ++_n; } else { ++_x; }
    return *this;
  }
  int const getOrder() const { return _n; }
  int const getX() const { return _x; }
  int const getY() const { return _y; }
  int const getIndex() const { return _i; }
  PackedIndex() : _n(0), _i(0), _x(0), _y(0) {}
  PackedIndex(int const x, int const y) : _n(x+y), _i(computeOffset(_n) + x), _x(x), _y(y) {}
  int _n; int _i; int _x; int _y;
};
```
-/

/-- The state of a C++ `PackedIndex` object: fields `_n`, `_i`, `_x`, `_y`. -/
@[ext]
structure PackedIndex where
  n : ℤ
  i : ℤ
  x : ℤ
  y : ℤ
  deriving DecidableEq, Repr

namespace PackedIndex

/-- `PackedIndex::computeOffset(order) = order*(order+1)/2`.  The product
`order*(order+1)` is always even, so the division is exact and the C++
truncating integer division agrees with Lean's integer division at every
input. -/
def computeOffset (order : ℤ) : ℤ := order * (order + 1) / 2

/-- `PackedIndex::computeIndex(x,y) = computeOffset(x+y) + x`. -/
def computeIndex (x y : ℤ) : ℤ := computeOffset (x + y) + x

/-- `PackedIndex::operator++`:
`++_i; if (--_y < 0) { _x = 0; _y = ++_n; } else { ++_x; }`. -/
def inc (s : PackedIndex) : PackedIndex :=
  if s.y - 1 < 0 then
    { n := s.n + 1, i := s.i + 1, x := 0, y := s.n + 1 }
  else
    { n := s.n, i := s.i + 1, x := s.x + 1, y := s.y - 1 }

/-- The default constructor `PackedIndex() : _n(0), _i(0), _x(0), _y(0)`. -/
def init : PackedIndex := { n := 0, i := 0, x := 0, y := 0 }

/-- The constructor `PackedIndex(x, y) : _n(x+y), _i(computeOffset(_n)+x), _x(x), _y(y)`. -/
def ofXY (x y : ℤ) : PackedIndex :=
  { n := x + y, i := computeOffset (x + y) + x, x := x, y := y }

/-- The state after `k` advances from the default-constructed object. -/
def stateAt (k : ℕ) : PackedIndex := inc^[k] init

/-- The `PackedIndex` class invariant: coordinates are non-negative, the
order field is the sum of the coordinates, and the flat index field agrees
with `computeIndex`. -/
def Good (s : PackedIndex) : Prop :=
  0 ≤ s.x ∧ 0 ≤ s.y ∧ s.n = s.x + s.y ∧ s.i = computeIndex s.x s.y

/-- States reachable through the public interface: the default constructor,
the `(x, y)` constructor with non-negative arguments, and any number of
advances. -/
inductive Reachable : PackedIndex → Prop
  | default : Reachable init
  | construct (x y : ℤ) (hx : 0 ≤ x) (hy : 0 ≤ y) : Reachable (ofXY x y)
  | step (s : PackedIndex) : Reachable s → Reachable (inc s)

end PackedIndex

/-! ## HermiteEvaluator

The header declares `HermiteEvaluator` with two per-axis workspaces and the
inline accessor `getOrder() { return _xWorkspace.getSize<0>() - 1; }`; the
bodies of the constructor, `fillEvaluation`, `fillIntegration`,
`sumEvaluation`, `sumIntegration`, `weaveSum`, `weaveFill` and
`computeInnerProductMatrix` are not part of the given sources, so the
models below are built from the specification. -/

/-- Modelled from the spec: the 1-D orthonormal Gauss-Hermite function
values generated by the per-axis recurrence — "h_0 and h_1 as closed
forms, h_{k+1} from h_k and h_{k-1} and k".  The normalization constants
follow the orthonormal convention; the spec leaves the exact placement of
the constants open and asks that the choice be verified through the
orthonormality property, which is proved below. -/
noncomputable def hermiteFunction : ℕ → ℝ → ℝ
  | 0, x => (Real.sqrt (Real.sqrt Real.pi))⁻¹ * Real.exp (-(x ^ 2 / 2))
  | 1, x => Real.sqrt 2 * x * hermiteFunction 0 x
  | (k + 2), x =>
      Real.sqrt (2 / (k + 2)) * x * hermiteFunction (k + 1) x -
        Real.sqrt ((k + 1) / (k + 2)) * hermiteFunction k x

/-- The state of a `HermiteEvaluator`: the two per-axis workspaces
(`_xWorkspace`, `_yWorkspace` in the header). -/
structure HermiteEvaluator where
  xWorkspace : List ℝ
  yWorkspace : List ℝ

/-- Modelled from the spec: the constructor `HermiteEvaluator(order)`
"allocates the axis workspaces sized order+1" (its body is not part of the
given header). -/
noncomputable def HermiteEvaluator.ofOrder (order : ℕ) : HermiteEvaluator :=
  { xWorkspace := List.replicate (order + 1) 0,
    yWorkspace := List.replicate (order + 1) 0 }

/-- `HermiteEvaluator::getOrder`, from the source:
`return _xWorkspace.getSize<0>() - 1;`. -/
def HermiteEvaluator.getOrder (ev : HermiteEvaluator) : ℤ :=
  (ev.xWorkspace.length : ℤ) - 1

/-- The packed basis value at flat position `k` for evaluation at `(x, y)`:
the product of the two 1-D Hermite-function values selected by the packed
index.  Modelled from the spec (§4.2, Algorithm). -/
noncomputable def evalEntry (x y : ℝ) (k : ℕ) : ℝ :=
  hermiteFunction (unpack k).1 x * hermiteFunction (unpack k).2 y

/-- The 1-D moment integral `∫ t^m h_n(t) dt`.  Modelled from the spec:
`fillIntegration` fills entries whose dot product with a coefficient vector
yields `∫ x^xMoment y^yMoment (expansion) d²x`. -/
noncomputable def hermiteMoment1d (m n : ℕ) : ℝ :=
  ∫ t : ℝ, t ^ m * hermiteFunction n t

/-- The packed entry at flat position `k` for integration with the given
moments.  Modelled from the spec (§4.2). -/
noncomputable def integEntry (xMoment yMoment : ℕ) (k : ℕ) : ℝ :=
  hermiteMoment1d xMoment (unpack k).1 * hermiteMoment1d yMoment (unpack k).2

/-- Fill a packed vector of length `size` with entries `entry 0 … entry
(size-1)` — the shared core of the fill operations. -/
noncomputable def fillVec (size : ℕ) (entry : ℕ → ℝ) : List ℝ :=
  (List.range size).map entry

/-- The failure mode of the evaluator interface: a shape/size precondition
violation, reported synchronously at the offending call. -/
inductive EvalError where
  | sizeMismatch
  deriving DecidableEq

/-- Modelled from the spec: `fillEvaluation(target, x, y)` overwrites
`target` with the packed basis values at `(x, y)`; a `target` whose length
differs from the packed size for the configured order is a fatal
precondition failure reported at the call, with no partial result. -/
noncomputable def fillEvaluation (order : ℕ) (target : List ℝ) (x y : ℝ) :
    Except EvalError (List ℝ) :=
  if target.length = packedSize order then
    Except.ok (fillVec (packedSize order) (evalEntry x y))
  else
    Except.error EvalError.sizeMismatch

/-- Modelled from the spec: `fillIntegration(target, xMoment, yMoment)`,
with the same size precondition as `fillEvaluation`. -/
noncomputable def fillIntegration (order : ℕ) (target : List ℝ) (xMoment yMoment : ℕ) :
    Except EvalError (List ℝ) :=
  if target.length = packedSize order then
    Except.ok (fillVec (packedSize order) (integEntry xMoment yMoment))
  else
    Except.error EvalError.sizeMismatch

/-- Modelled from the spec: the weaving traversal (`weaveSum`) interleaves
the packed-index traversal with the per-axis values, accumulating
`target[k] * entry k` in a single pass instead of materializing a basis
vector. -/
noncomputable def weaveSum (size : ℕ) (entry : ℕ → ℝ) (target : List ℝ) : ℝ :=
  (List.range size).foldl (fun acc k => acc + target.getD k 0 * entry k) 0

/-- Modelled from the spec: `sumEvaluation(target, x, y)` returns the value
of the expansion with coefficients `target` at `(x, y)`, computed by
weaving. -/
noncomputable def sumEvaluation (order : ℕ) (target : List ℝ) (x y : ℝ) : ℝ :=
  weaveSum (packedSize order) (evalEntry x y) target

/-- Modelled from the spec: `sumIntegration(target, xMoment, yMoment)`
returns the moment integral of the expansion with coefficients `target`,
computed by weaving. -/
noncomputable def sumIntegration (order : ℕ) (target : List ℝ) (xMoment yMoment : ℕ) : ℝ :=
  weaveSum (packedSize order) (integEntry xMoment yMoment) target

/-- Dot product of a coefficient vector with a basis vector. -/
noncomputable def dotList (u v : List ℝ) : ℝ :=
  (List.zipWith (fun p q => p * q) u v).sum

/-! ## ModelBuilder

The header declares the template class `ModelBuilder<T>` (construction from
coordinate arrays, `update(ellipse)`, `addModelMatrix`, `addModelVector`)
but none of the method bodies are part of the given sources; the model
below is built from the specification. -/

/-- Modelled from the spec: the state of a `ModelBuilder` after the most
recent `update(ellipse)` call — the fixed per-pixel coordinate arrays
(already center-subtracted), the workspace capacity order, the
approximate-exponential flag fixed at construction, and the ellipse
parameters of the most recent update (semi-axes `a`, `b`, position angle
`theta`). -/
structure ModelBuilder (npix : ℕ) where
  wsOrder : ℕ
  xCoord : Fin npix → ℝ
  yCoord : Fin npix → ℝ
  useApproximateExp : Bool
  a : ℝ
  b : ℝ
  theta : ℝ

/-- Modelled from the spec: the x component of the coordinate array
re-projected through the ellipse's affine transform (rotate by `-theta`,
then scale by the inverse semi-axes). -/
noncomputable def ModelBuilder.xt {npix : ℕ} (mb : ModelBuilder npix) (i : Fin npix) : ℝ :=
  (Real.cos mb.theta * mb.xCoord i + Real.sin mb.theta * mb.yCoord i) / mb.a

/-- Modelled from the spec: the y component of the re-projected coordinate
array. -/
noncomputable def ModelBuilder.yt {npix : ℕ} (mb : ModelBuilder npix) (i : Fin npix) : ℝ :=
  (-Real.sin mb.theta * mb.xCoord i + Real.cos mb.theta * mb.yCoord i) / mb.b

/-- Modelled from the spec: the `_ellipseFactor` field — the basis
functions are divided by `a*b`, the ellipse's semi-axis product, so that
coefficients carry units of total flux. -/
noncomputable def ModelBuilder.ellipseFactor {npix : ℕ} (mb : ModelBuilder npix) : ℝ :=
  (mb.a * mb.b)⁻¹

/-- Modelled from the spec: the design-matrix entry at pixel `i` and packed
column `k`: the elementwise product of the per-axis recurrence values at
the transformed coordinate, times the ellipse factor. -/
noncomputable def ModelBuilder.designEntry {npix : ℕ} (mb : ModelBuilder npix)
    (i : Fin npix) (k : ℕ) : ℝ :=
  mb.ellipseFactor * evalEntry (mb.xt i) (mb.yt i) k

/-- Modelled from the spec: `addModelMatrix(order, output)` adds
(accumulates, does not overwrite) the current design matrix's first
`packedSize(order)` columns into the caller-supplied output matrix. -/
noncomputable def ModelBuilder.addModelMatrix {npix : ℕ} (mb : ModelBuilder npix)
    (order : ℕ) (output : Fin npix → ℕ → ℝ) : Fin npix → ℕ → ℝ :=
  fun i k => if k < packedSize order then output i k + mb.designEntry i k else output i k

/-- Modelled from the spec: `addModelVector(order, coefficients, output)`
adds the model evaluation — design matrix times coefficient vector —
directly into the caller-supplied output vector, computed by the same
weaving strategy as the scalar sum operations. -/
noncomputable def ModelBuilder.addModelVector {npix : ℕ} (mb : ModelBuilder npix)
    (order : ℕ) (coefficients : List ℝ) (output : Fin npix → ℝ) : Fin npix → ℝ :=
  fun i => output i + weaveSum (packedSize order) (mb.designEntry i) coefficients

/-- The correctly (L²-)normalized 2-D Gaussian: the order-0 member of the
orthonormal Gauss-Hermite basis. -/
noncomputable def gaussian2d (u v : ℝ) : ℝ :=
  (Real.sqrt Real.pi)⁻¹ * Real.exp (-((u ^ 2 + v ^ 2) / 2))

/-- A concrete one-pixel builder used by the witnesses: unit circular
ellipse, pixel at the origin. -/
noncomputable def sampleBuilder : ModelBuilder 1 :=
  { wsOrder := 0, xCoord := fun _ => 0, yCoord := fun _ => 0,
    useApproximateExp := false, a := 1, b := 1, theta := 0 }

/-! ## Inner products of Hermite-Gaussian basis functions -/

/-- The 2-D Hermite-Gaussian basis function with axis orders `(px, py)`,
evaluated at a point of the plane.  Modelled from the spec: the packed 2-D
value is the product of the corresponding 1-D values. -/
noncomputable def basis2d (px py : ℕ) (p : ℝ × ℝ) : ℝ :=
  hermiteFunction px p.1 * hermiteFunction py p.2

/-- Modelled from the spec:
`computeInnerProductMatrix(rowOrder, colOrder, a, b)` is the matrix with
`M[i,j] = ∫ d²x ψ_i(a·x) φ_j(b·x)`, the `ψ/φ` being packed-indexed
Hermite-Gaussian basis functions scaled by `a` and `b` respectively. -/
noncomputable def computeInnerProductMatrix (rowOrder colOrder : ℕ) (a b : ℝ) :
    Matrix (Fin (packedSize rowOrder)) (Fin (packedSize colOrder)) ℝ :=
  Matrix.of fun i j => ∫ p : ℝ × ℝ,
    basis2d (unpack i.val).1 (unpack i.val).2 (a * p.1, a * p.2) *
    basis2d (unpack j.val).1 (unpack j.val).2 (b * p.1, b * p.2)

/-- Proof scaffolding: a polynomial with integer coefficients times the
Gaussian weight `exp (-(x²/2))`. -/
noncomputable def pgauss (q : Polynomial ℤ) (x : ℝ) : ℝ :=
  Polynomial.aeval x q * Real.exp (-(x ^ 2 / 2))

/-- The orthonormality normalization constant of the `n`-th 1-D
Hermite-Gaussian function. -/
noncomputable def hermiteNorm (n : ℕ) : ℝ :=
  (Real.sqrt (Real.sqrt Real.pi))⁻¹ * (Real.sqrt (Nat.factorial n))⁻¹

/-! ## Theorems -/

theorem offsetN_succ (n : ℕ) : offsetN (n + 1) = offsetN n + (n + 1) := by
  unfold offsetN
  obtain ⟨m, hm⟩ := Nat.even_mul_succ_self n
  have h2 : n * (n + 1) = 2 * m := by omega
  have h3 : (n + 1) * (n + 1 + 1) = 2 * (m + (n + 1)) := by nlinarith
  rw [h2, h3, Nat.mul_div_cancel_left _ (by norm_num), Nat.mul_div_cancel_left _ (by norm_num)]

theorem offsetN_mono : StrictMono offsetN := by
  apply strictMono_nat_of_lt_succ
  intro n
  rw [offsetN_succ]
  omega

theorem packedSize_eq (N : ℕ) : packedSize N = offsetN (N + 1) := rfl

theorem indexN_unpack (k : ℕ) : indexN (unpack k).1 (unpack k).2 = k := by
  induction k with
  | zero => rfl
  | succ k ih =>
    unfold unpack
    by_cases h : (unpack k).2 = 0
    · simp only [h, if_true]
      unfold indexN at ih ⊢
      simp only [h, Nat.add_zero] at ih
      simp only [Nat.zero_add, Nat.add_zero]
      rw [offsetN_succ]
      omega
    · simp only [h, if_false]
      unfold indexN at ih ⊢
      have h2 : (unpack k).1 + 1 + ((unpack k).2 - 1) = (unpack k).1 + (unpack k).2 := by omega
      rw [h2]
      omega

theorem indexN_inj {x y a b : ℕ} (h : indexN x y = indexN a b) : x = a ∧ y = b := by
  unfold indexN at h
  rcases Nat.lt_trichotomy (x + y) (a + b) with hlt | heq | hgt
  · exfalso
    have h1 : offsetN (x + y) + x < offsetN (x + y + 1) := by
      rw [offsetN_succ]; omega
    have h2 : offsetN (x + y + 1) ≤ offsetN (a + b) := offsetN_mono.le_iff_le.mpr (by omega)
    omega
  · rw [heq] at h
    have hx : x = a := by omega
    exact ⟨hx, by omega⟩
  · exfalso
    have h1 : offsetN (a + b) + a < offsetN (a + b + 1) := by
      rw [offsetN_succ]; omega
    have h2 : offsetN (a + b + 1) ≤ offsetN (x + y) := offsetN_mono.le_iff_le.mpr (by omega)
    omega

theorem unpack_indexN (x y : ℕ) : unpack (indexN x y) = (x, y) := by
  have h := indexN_unpack (indexN x y)
  obtain ⟨h1, h2⟩ := indexN_inj h
  ext
  · exact h1
  · exact h2

theorem computeOffset_natCast (n : ℕ) :
    PackedIndex.computeOffset (n : ℤ) = (offsetN n : ℤ) := by
  unfold PackedIndex.computeOffset offsetN
  have h1 : (n : ℤ) * ((n : ℤ) + 1) = ((n * (n + 1) : ℕ) : ℤ) := by push_cast; ring
  rw [h1]
  obtain ⟨m, hm⟩ := Nat.even_mul_succ_self n
  omega

theorem computeOffset_succ (m : ℤ) :
    PackedIndex.computeOffset (m + 1) = PackedIndex.computeOffset m + (m + 1) := by
  unfold PackedIndex.computeOffset
  obtain ⟨t, ht⟩ := Int.even_mul_succ_self m
  have h2 : (m + 1) * (m + 1 + 1) = m * (m + 1) + 2 * (m + 1) := by ring
  omega

theorem computeIndex_natCast (x y : ℕ) :
    PackedIndex.computeIndex (x : ℤ) (y : ℤ) = (indexN x y : ℤ) := by
  unfold PackedIndex.computeIndex indexN
  have h1 : (x : ℤ) + (y : ℤ) = ((x + y : ℕ) : ℤ) := by push_cast; ring
  rw [h1, computeOffset_natCast]
  push_cast
  ring

theorem indexN_lt_iff (x y N : ℕ) : indexN x y < packedSize N ↔ x + y ≤ N := by
  rw [packedSize_eq]
  constructor
  · intro h
    by_contra hc
    have : offsetN (N + 1) ≤ offsetN (x + y) := offsetN_mono.le_iff_le.mpr (by omega)
    unfold indexN at h
    omega
  · intro h
    unfold indexN
    have h1 : offsetN (x + y) + x < offsetN (x + y + 1) := by rw [offsetN_succ]; omega
    have h2 : offsetN (x + y + 1) ≤ offsetN (N + 1) := offsetN_mono.le_iff_le.mpr (by omega)
    omega

theorem unpack_succ (k : ℕ) :
    unpack (k + 1) =
      if (unpack k).2 = 0 then (0, (unpack k).1 + 1)
      else ((unpack k).1 + 1, (unpack k).2 - 1) := rfl

theorem stateAt_succ (k : ℕ) :
    PackedIndex.stateAt (k + 1) = PackedIndex.inc (PackedIndex.stateAt k) := by
  unfold PackedIndex.stateAt
  rw [Function.iterate_succ_apply']

theorem stateAt_eq_unpack (k : ℕ) :
    PackedIndex.stateAt k =
      { n := (((unpack k).1 + (unpack k).2 : ℕ) : ℤ), i := (k : ℤ),
        x := (((unpack k).1 : ℕ) : ℤ), y := (((unpack k).2 : ℕ) : ℤ) } := by
  induction k with
  | zero => rfl
  | succ k ih =>
    by_cases h : (unpack k).2 = 0
    · have hcond : (PackedIndex.stateAt k).y - 1 < 0 := by
        rw [ih]
        simp only
        omega
      rw [stateAt_succ]
      unfold PackedIndex.inc
      rw [if_pos hcond, ih, unpack_succ, if_pos h]
      ext <;> simp only <;> push_cast <;> omega
    · have hcond : ¬ ((PackedIndex.stateAt k).y - 1 < 0) := by
        rw [ih]
        simp only
        omega
      rw [stateAt_succ]
      unfold PackedIndex.inc
      rw [if_neg hcond, ih, unpack_succ, if_neg h]
      ext <;> simp only <;> push_cast <;> omega

theorem stateAt_x (k : ℕ) : (PackedIndex.stateAt k).x = (((unpack k).1 : ℕ) : ℤ) := by
  rw [stateAt_eq_unpack]

theorem stateAt_y (k : ℕ) : (PackedIndex.stateAt k).y = (((unpack k).2 : ℕ) : ℤ) := by
  rw [stateAt_eq_unpack]

theorem stateAt_i (k : ℕ) : (PackedIndex.stateAt k).i = (k : ℤ) := by
  rw [stateAt_eq_unpack]

/-- **C1.** For every order `N ≥ 0`, starting a `PackedIndex` at the origin and
advancing with `operator++` visits, within the first `(N+1)(N+2)/2` steps,
every pair `(x, y)` of non-negative integers with `x + y ≤ N` exactly once;
at the visited pair the flat index `getIndex()` equals
`computeIndex(x, y) = (x+y)(x+y+1)/2 + x`, which equals the number of
advances taken to reach the pair; and every one of those steps stays inside
the triangle `x + y ≤ N` with `getIndex()` equal to the step count. -/
theorem c1_packed_index_bijection (N x y k : ℕ)
    (hxy : x + y ≤ N) (hk : k < (N + 1) * (N + 2) / 2) :
    (∃! m : ℕ, m < (N + 1) * (N + 2) / 2 ∧
        (PackedIndex.stateAt m).x = (x : ℤ) ∧ (PackedIndex.stateAt m).y = (y : ℤ)) ∧
    (PackedIndex.stateAt (indexN x y)).x = (x : ℤ) ∧
    (PackedIndex.stateAt (indexN x y)).y = (y : ℤ) ∧
    (PackedIndex.stateAt (indexN x y)).i = PackedIndex.computeIndex (x : ℤ) (y : ℤ) ∧
    PackedIndex.computeIndex (x : ℤ) (y : ℤ) = ((indexN x y : ℕ) : ℤ) ∧
    (PackedIndex.stateAt k).i = (k : ℤ) ∧
    0 ≤ (PackedIndex.stateAt k).x ∧ 0 ≤ (PackedIndex.stateAt k).y ∧
    (PackedIndex.stateAt k).x + (PackedIndex.stateAt k).y ≤ (N : ℤ) := by
  have hsize : (N + 1) * (N + 2) / 2 = packedSize N := rfl
  have hvisit : ∀ m : ℕ, (PackedIndex.stateAt m).x = (x : ℤ) →
      (PackedIndex.stateAt m).y = (y : ℤ) → m = indexN x y := by
    intro m hx hy
    rw [stateAt_x] at hx
    rw [stateAt_y] at hy
    have hx2 : (unpack m).1 = x := by exact_mod_cast hx
    have hy2 : (unpack m).2 = y := by exact_mod_cast hy
    have := indexN_unpack m
    rw [hx2, hy2] at this
    omega
  refine ⟨⟨indexN x y, ⟨?_, ?_, ?_⟩, ?_⟩, ?_, ?_, ?_, ?_, stateAt_i k, ?_, ?_, ?_⟩
  · rw [hsize]
    exact (indexN_lt_iff x y N).mpr hxy
  · rw [stateAt_x, unpack_indexN]
  · rw [stateAt_y, unpack_indexN]
  · intro m hm
    exact hvisit m hm.2.1 hm.2.2
  · rw [stateAt_x, unpack_indexN]
  · rw [stateAt_y, unpack_indexN]
  · rw [stateAt_i, computeIndex_natCast]
  · rw [computeIndex_natCast]
  · rw [stateAt_x]
    positivity
  · rw [stateAt_y]
    positivity
  · rw [stateAt_x, stateAt_y]
    have hmem : (unpack k).1 + (unpack k).2 ≤ N := by
      have h1 := indexN_unpack k
      have h2 : indexN (unpack k).1 (unpack k).2 < packedSize N := by
        rw [h1, ← hsize]; exact hk
      exact (indexN_lt_iff _ _ N).mp h2
    omega

/-- Witness for C1, at `N = 2`, `(x, y) = (1, 1)`, `k = 3` (note
`indexN 1 1 = 4`, so step 3 and the visit to `(1,1)` are distinct). -/
theorem c1_packed_index_bijection_witness :
    (1 + 1 ≤ 2 ∧ 3 < (2 + 1) * (2 + 2) / 2) ∧
    ((∃! m : ℕ, m < (2 + 1) * (2 + 2) / 2 ∧
        (PackedIndex.stateAt m).x = ((1 : ℕ) : ℤ) ∧
        (PackedIndex.stateAt m).y = ((1 : ℕ) : ℤ)) ∧
    (PackedIndex.stateAt (indexN 1 1)).x = ((1 : ℕ) : ℤ) ∧
    (PackedIndex.stateAt (indexN 1 1)).y = ((1 : ℕ) : ℤ) ∧
    (PackedIndex.stateAt (indexN 1 1)).i =
      PackedIndex.computeIndex ((1 : ℕ) : ℤ) ((1 : ℕ) : ℤ) ∧
    PackedIndex.computeIndex ((1 : ℕ) : ℤ) ((1 : ℕ) : ℤ) = ((indexN 1 1 : ℕ) : ℤ) ∧
    (PackedIndex.stateAt 3).i = ((3 : ℕ) : ℤ) ∧
    0 ≤ (PackedIndex.stateAt 3).x ∧ 0 ≤ (PackedIndex.stateAt 3).y ∧
    (PackedIndex.stateAt 3).x + (PackedIndex.stateAt 3).y ≤ ((2 : ℕ) : ℤ)) :=
  ⟨⟨by decide, by decide⟩, c1_packed_index_bijection 2 1 1 3 (by decide) (by decide)⟩

/-- **C7, counterexample.** The claim says: advancing from `(x = 0, y = n)`
resets `y` to `0` and increments the order.  At `n = 1` the code advances
from `(0, 1)` to `(1, 0)` leaving the order at `1`, so the order is *not*
incremented (the conjunction fails). -/
theorem c7_counterexample :
    ¬ ((PackedIndex.inc (PackedIndex.ofXY 0 1)).y = 0 ∧
       (PackedIndex.inc (PackedIndex.ofXY 0 1)).n = (PackedIndex.ofXY 0 1).n + 1) := by
  decide

/-- **C7, amended.** The rollover transition of `operator++` happens at the
*last* pair of an order, `(x = n, y = 0)`, not at `(x = 0, y = n)`: there the
advance resets `x` to `0` and sets both `y` and the order to `n + 1`, i.e. it
moves to the first pair of the next order, `PackedIndex(0, n+1)`.  At
`(x = 0, y = n)` with `n ≥ 1` the advance instead moves to
`PackedIndex(1, n-1)`, keeping the order. -/
theorem c7_amended_rollover (n : ℕ) :
    PackedIndex.inc (PackedIndex.ofXY (n : ℤ) 0) = PackedIndex.ofXY 0 ((n : ℤ) + 1) ∧
    (1 ≤ n →
      PackedIndex.inc (PackedIndex.ofXY 0 (n : ℤ)) = PackedIndex.ofXY 1 ((n : ℤ) - 1)) := by
  constructor
  · have hcond : (PackedIndex.ofXY (n : ℤ) 0).y - 1 < 0 := by
      unfold PackedIndex.ofXY
      simp only []
      omega
    unfold PackedIndex.inc
    rw [if_pos hcond]
    unfold PackedIndex.ofXY
    have hoff : PackedIndex.computeOffset ((n : ℤ) + 0) + (n : ℤ) + 1 =
        PackedIndex.computeOffset (0 + ((n : ℤ) + 1)) + 0 := by
      have h1 : (0 : ℤ) + ((n : ℤ) + 1) = ((n : ℤ) + 0) + 1 := by ring
      rw [h1, computeOffset_succ]
      ring
    ext <;> simp only [] <;> omega
  · intro hn
    have hcond : ¬ ((PackedIndex.ofXY 0 (n : ℤ)).y - 1 < 0) := by
      unfold PackedIndex.ofXY
      simp only []
      omega
    unfold PackedIndex.inc
    rw [if_neg hcond]
    unfold PackedIndex.ofXY
    have hoff : PackedIndex.computeOffset (0 + (n : ℤ)) + 0 + 1 =
        PackedIndex.computeOffset (1 + ((n : ℤ) - 1)) + 1 := by
      have h1 : (1 : ℤ) + ((n : ℤ) - 1) = 0 + (n : ℤ) := by ring
      rw [h1]
      ring
    ext <;> simp only [] <;> omega

/-- Witness for the amended C7, at `n = 1`: the rollover `(1,0) → (0,2)`
and the in-order step `(0,1) → (1,0)`. -/
theorem c7_amended_rollover_witness :
    PackedIndex.inc (PackedIndex.ofXY ((1 : ℕ) : ℤ) 0) =
        PackedIndex.ofXY 0 (((1 : ℕ) : ℤ) + 1) ∧
    PackedIndex.inc (PackedIndex.ofXY 0 ((1 : ℕ) : ℤ)) =
        PackedIndex.ofXY 1 (((1 : ℕ) : ℤ) - 1) :=
  ⟨(c7_amended_rollover 1).1, (c7_amended_rollover 1).2 (by decide)⟩

/-- **C10.** Every `PackedIndex` state reachable from the default
constructor, from the `(x, y)` constructor with non-negative arguments, or
by any sequence of advances satisfies `getOrder() = getX() + getY()` and
`getIndex() = computeIndex(getX(), getY())`; moreover a single advance
increases `getIndex()` by exactly one. -/
theorem c10_packed_index_invariant (s : PackedIndex) (h : PackedIndex.Reachable s) :
    s.n = s.x + s.y ∧ s.i = PackedIndex.computeIndex s.x s.y ∧
    (PackedIndex.inc s).i = s.i + 1 := by
  have hinc : ∀ t : PackedIndex, (PackedIndex.inc t).i = t.i + 1 := by
    intro t
    unfold PackedIndex.inc
    by_cases hc : t.y - 1 < 0
    · rw [if_pos hc]
    · rw [if_neg hc]
  have hgood : PackedIndex.Good s := by
    induction h with
    | default =>
        refine ⟨le_refl 0, le_refl 0, ?_, ?_⟩
        · unfold PackedIndex.init
          simp only []
          ring
        · unfold PackedIndex.init PackedIndex.computeIndex PackedIndex.computeOffset
          simp only []
          norm_num
    | construct x y hx hy =>
        exact ⟨hx, hy, rfl, rfl⟩
    | step t _ ih =>
        obtain ⟨ihx, ihy, ihn, ihi⟩ := ih
        unfold PackedIndex.inc
        by_cases hc : t.y - 1 < 0
        · rw [if_pos hc]
          have hy0 : t.y = 0 := by omega
          have hn : t.n = t.x := by omega
          have hoff : PackedIndex.computeIndex 0 (t.n + 1) =
              PackedIndex.computeIndex t.x t.y + 1 := by
            rw [hy0, hn]
            unfold PackedIndex.computeIndex
            have h1 : (0 : ℤ) + (t.x + 1) = (t.x + 0) + 1 := by ring
            rw [h1, computeOffset_succ]
            ring
          refine ⟨?_, ?_, ?_, ?_⟩ <;> simp only []
          · exact le_refl 0
          · omega
          · ring
          · omega
        · rw [if_neg hc]
          have hoff : PackedIndex.computeIndex (t.x + 1) (t.y - 1) =
              PackedIndex.computeIndex t.x t.y + 1 := by
            unfold PackedIndex.computeIndex
            have hsum : t.x + 1 + (t.y - 1) = t.x + t.y := by ring
            rw [hsum]
            ring
          refine ⟨?_, ?_, ?_, ?_⟩ <;> simp only []
          · omega
          · omega
          · omega
          · omega
  exact ⟨hgood.2.2.1, hgood.2.2.2, hinc s⟩

/-- Witness for C10, at the state reached by one advance from the default
constructor. -/
theorem c10_packed_index_invariant_witness :
    (PackedIndex.inc PackedIndex.init).n =
        (PackedIndex.inc PackedIndex.init).x + (PackedIndex.inc PackedIndex.init).y ∧
    (PackedIndex.inc PackedIndex.init).i =
        PackedIndex.computeIndex (PackedIndex.inc PackedIndex.init).x
          (PackedIndex.inc PackedIndex.init).y ∧
    (PackedIndex.inc (PackedIndex.inc PackedIndex.init)).i =
        (PackedIndex.inc PackedIndex.init).i + 1 :=
  c10_packed_index_invariant (PackedIndex.inc PackedIndex.init)
    (PackedIndex.Reachable.step PackedIndex.init PackedIndex.Reachable.default)

theorem foldl_add_shift (g : ℕ → ℝ) (l : List ℕ) (init : ℝ) :
    l.foldl (fun acc k => acc + g k) init = init + l.foldl (fun acc k => acc + g k) 0 := by
  induction l generalizing init with
  | nil => simp
  | cons hd tl ih =>
    simp only [List.foldl_cons]
    rw [ih, ih (0 + g hd)]
    ring

theorem weaveSum_eq_dot (entry : ℕ → ℝ) (c : List ℝ) :
    weaveSum c.length entry c = dotList c (fillVec c.length entry) := by
  induction c generalizing entry with
  | nil => rfl
  | cons a t ih =>
    unfold weaveSum fillVec dotList at ih ⊢
    rw [List.length_cons, List.range_succ_eq_map]
    simp only [List.foldl_cons, List.map_cons, List.zipWith_cons_cons, List.sum_cons,
      List.getD_cons_zero, List.foldl_map, List.map_map]
    rw [foldl_add_shift]
    have hshift :
        (List.range t.length).foldl
            (fun acc k => acc + (a :: t).getD (Nat.succ k) 0 * entry (Nat.succ k)) 0 =
        (List.range t.length).foldl
            (fun acc k => acc + t.getD k 0 * (entry ∘ Nat.succ) k) 0 := by
      apply List.foldl_ext
      intro acc k hk
      simp [List.getD_cons_succ]
    rw [hshift, ih (entry ∘ Nat.succ)]
    simp [Function.comp]

/-- **C8.** `HermiteEvaluator(order)` allocates both axis workspaces with
size `order + 1`, and `getOrder()` — computed from the source as the
x-workspace size minus one — returns exactly `order`. -/
theorem c8_evaluator_order (order : ℕ) :
    (HermiteEvaluator.ofOrder order).xWorkspace.length = order + 1 ∧
    (HermiteEvaluator.ofOrder order).yWorkspace.length = order + 1 ∧
    (HermiteEvaluator.ofOrder order).getOrder = (order : ℤ) := by
  refine ⟨?_, ?_, ?_⟩ <;>
    simp [HermiteEvaluator.ofOrder, HermiteEvaluator.getOrder]

/-- **C2.** For every coefficient vector `c` whose length equals the packed
size for the configured order and every point `(x, y)`,
`sumEvaluation(c, x, y)` equals the dot product of `c` with the vector
produced by `fillEvaluation` at `(x, y)`; analogously for
`sumIntegration` / `fillIntegration` at every pair of moments. -/
theorem c2_fill_sum_consistency (order : ℕ) (c : List ℝ) (x y : ℝ)
    (xMoment yMoment : ℕ) (hc : c.length = packedSize order) :
    sumEvaluation order c x y = dotList c (fillVec (packedSize order) (evalEntry x y)) ∧
    fillEvaluation order c x y =
      Except.ok (fillVec (packedSize order) (evalEntry x y)) ∧
    sumIntegration order c xMoment yMoment =
      dotList c (fillVec (packedSize order) (integEntry xMoment yMoment)) ∧
    fillIntegration order c xMoment yMoment =
      Except.ok (fillVec (packedSize order) (integEntry xMoment yMoment)) := by
  refine ⟨?_, ?_, ?_, ?_⟩
  · unfold sumEvaluation
    rw [← hc]
    exact weaveSum_eq_dot (evalEntry x y) c
  · unfold fillEvaluation
    rw [if_pos hc]
  · unfold sumIntegration
    rw [← hc]
    exact weaveSum_eq_dot (integEntry xMoment yMoment) c
  · unfold fillIntegration
    rw [if_pos hc]

/-- Witness for C2, at order 0, `c = [1]`, `(x, y) = (0, 0)`, zero
moments. -/
theorem c2_fill_sum_consistency_witness :
    (([(1 : ℝ)]).length = packedSize 0) ∧
    (sumEvaluation 0 [(1 : ℝ)] 0 0 =
        dotList [(1 : ℝ)] (fillVec (packedSize 0) (evalEntry 0 0)) ∧
      fillEvaluation 0 [(1 : ℝ)] 0 0 =
        Except.ok (fillVec (packedSize 0) (evalEntry 0 0)) ∧
      sumIntegration 0 [(1 : ℝ)] 0 0 =
        dotList [(1 : ℝ)] (fillVec (packedSize 0) (integEntry 0 0)) ∧
      fillIntegration 0 [(1 : ℝ)] 0 0 =
        Except.ok (fillVec (packedSize 0) (integEntry 0 0))) :=
  ⟨rfl, c2_fill_sum_consistency 0 [(1 : ℝ)] 0 0 0 0 rfl⟩

/-- **C9.** Calling `fillEvaluation` with a target vector whose length
differs from the packed size for the configured order fails with the
size-mismatch precondition failure at that call, and no vector — partial
or otherwise — is produced. -/
theorem c9_fill_evaluation_precondition (order : ℕ) (target : List ℝ) (x y : ℝ)
    (h : target.length ≠ packedSize order) :
    fillEvaluation order target x y = Except.error EvalError.sizeMismatch ∧
    ∀ l : List ℝ, fillEvaluation order target x y ≠ Except.ok l := by
  unfold fillEvaluation
  rw [if_neg h]
  exact ⟨rfl, fun l hl => by cases hl⟩

/-- Witness for C9: an empty target for an order-0 evaluator (packed size
1). -/
theorem c9_fill_evaluation_precondition_witness :
    (([] : List ℝ).length ≠ packedSize 0) ∧
    (fillEvaluation 0 ([] : List ℝ) 0 0 = Except.error EvalError.sizeMismatch ∧
      ∀ l : List ℝ, fillEvaluation 0 ([] : List ℝ) 0 0 ≠ Except.ok l) :=
  ⟨by decide, c9_fill_evaluation_precondition 0 ([] : List ℝ) 0 0 (by decide)⟩

theorem fillVec_congr (size : ℕ) (f g : ℕ → ℝ) (h : ∀ k, k < size → f k = g k) :
    fillVec size f = fillVec size g := by
  unfold fillVec
  apply List.map_congr_left
  intro k hk
  exact h k (List.mem_range.mp hk)

/-- **C5.** For a builder in a fixed state and an order within its
capacity, `addModelMatrix(order, output)` adds the design matrix's first
`packedSize(order)` columns elementwise into the caller-supplied output:
the result at a column `k < packedSize(order)` is the old content plus the
design-matrix entry (so applying it twice adds the entry twice — it
accumulates rather than overwrites), and columns beyond
`packedSize(order)` are untouched. -/
theorem c5_add_model_matrix_accumulates (npix : ℕ) (mb : ModelBuilder npix)
    (order : ℕ) (_hord : order ≤ mb.wsOrder) (output : Fin npix → ℕ → ℝ)
    (i : Fin npix) (k : ℕ) (hk : k < packedSize order) :
    mb.addModelMatrix order output i k = output i k + mb.designEntry i k ∧
    mb.addModelMatrix order (mb.addModelMatrix order output) i k =
      output i k + 2 * mb.designEntry i k ∧
    ∀ k2 : ℕ, ¬ k2 < packedSize order →
      mb.addModelMatrix order output i k2 = output i k2 := by
  unfold ModelBuilder.addModelMatrix
  refine ⟨by rw [if_pos hk], ?_, ?_⟩
  · rw [if_pos hk, if_pos hk]
    ring
  · intro k2 hk2
    rw [if_neg hk2]

/-- Witness for C5, on the one-pixel unit-circle builder at order 0,
column 0, zero output. -/
theorem c5_add_model_matrix_accumulates_witness :
    (0 ≤ sampleBuilder.wsOrder ∧ 0 < packedSize 0) ∧
    (sampleBuilder.addModelMatrix 0 (fun _ _ => 0) 0 0 =
        (fun (_ : Fin 1) (_ : ℕ) => (0 : ℝ)) 0 0 + sampleBuilder.designEntry 0 0 ∧
      sampleBuilder.addModelMatrix 0 (sampleBuilder.addModelMatrix 0 (fun _ _ => 0)) 0 0 =
        (fun (_ : Fin 1) (_ : ℕ) => (0 : ℝ)) 0 0 + 2 * sampleBuilder.designEntry 0 0 ∧
      ∀ k2 : ℕ, ¬ k2 < packedSize 0 →
        sampleBuilder.addModelMatrix 0 (fun _ _ => 0) 0 k2 =
          (fun (_ : Fin 1) (_ : ℕ) => (0 : ℝ)) 0 k2) :=
  ⟨⟨Nat.zero_le _, by decide⟩,
    c5_add_model_matrix_accumulates 1 sampleBuilder 0 (Nat.zero_le _)
      (fun _ _ => 0) 0 0 (by decide)⟩

/-- **C4.** For a builder in a fixed state, an order within its capacity
and a coefficient vector of the packed size, `addModelVector(order, c,
out)` leaves each output entry equal to its old value plus the dot product
of `c` with the corresponding row of the matrix that `addModelMatrix`
would produce on a zero-initialized output. -/
theorem c4_add_model_vector_equivalence (npix : ℕ) (mb : ModelBuilder npix)
    (order : ℕ) (_hord : order ≤ mb.wsOrder) (c : List ℝ)
    (hc : c.length = packedSize order) (out : Fin npix → ℝ) (i : Fin npix) :
    mb.addModelVector order c out i =
      out i + dotList c (fillVec (packedSize order)
        (fun k => mb.addModelMatrix order (fun _ _ => 0) i k)) := by
  unfold ModelBuilder.addModelVector
  have hvec : fillVec (packedSize order)
      (fun k => mb.addModelMatrix order (fun _ _ => 0) i k) =
      fillVec (packedSize order) (mb.designEntry i) := by
    apply fillVec_congr
    intro k hk
    unfold ModelBuilder.addModelMatrix
    rw [if_pos hk]
    ring
  rw [hvec, ← hc, weaveSum_eq_dot (mb.designEntry i) c]

/-- Witness for C4, on the one-pixel unit-circle builder at order 0 with
`c = [1]` and zero output. -/
theorem c4_add_model_vector_equivalence_witness :
    (0 ≤ sampleBuilder.wsOrder ∧ ([(1 : ℝ)]).length = packedSize 0) ∧
    sampleBuilder.addModelVector 0 [(1 : ℝ)] (fun _ => 0) 0 =
      (fun (_ : Fin 1) => (0 : ℝ)) 0 + dotList [(1 : ℝ)] (fillVec (packedSize 0)
        (fun k => sampleBuilder.addModelMatrix 0 (fun _ _ => 0) 0 k)) :=
  ⟨⟨Nat.zero_le _, rfl⟩,
    c4_add_model_vector_equivalence 1 sampleBuilder 0 (Nat.zero_le _)
      [(1 : ℝ)] rfl (fun _ => 0) 0⟩

theorem integral_prod_mul_volume (f g : ℝ → ℝ) :
    ∫ p : ℝ × ℝ, f p.1 * g p.2 = (∫ x : ℝ, f x) * ∫ y : ℝ, g y := by
  rw [MeasureTheory.Measure.volume_eq_prod ℝ ℝ, MeasureTheory.integral_prod_mul]

theorem integral_exp_neg_sq : ∫ x : ℝ, Real.exp (-x ^ 2) = Real.sqrt Real.pi := by
  have h := integral_gaussian 1
  simpa using h

theorem gaussian2d_sq_integral : (∫ p : ℝ × ℝ, (gaussian2d p.1 p.2) ^ 2) = 1 := by
  have hsq : ∀ u v : ℝ, (gaussian2d u v) ^ 2 =
      (Real.pi⁻¹ * Real.exp (-u ^ 2)) * Real.exp (-v ^ 2) := by
    intro u v
    unfold gaussian2d
    rw [mul_pow, inv_pow, Real.sq_sqrt Real.pi_pos.le, pow_two (Real.exp _), ← Real.exp_add]
    have harg : -((u ^ 2 + v ^ 2) / 2) + -((u ^ 2 + v ^ 2) / 2) = -u ^ 2 + -v ^ 2 := by ring
    rw [harg, Real.exp_add]
    ring
  simp only [hsq]
  rw [show (∫ p : ℝ × ℝ, Real.pi⁻¹ * Real.exp (-p.1 ^ 2) * Real.exp (-p.2 ^ 2)) =
      (∫ x : ℝ, Real.pi⁻¹ * Real.exp (-x ^ 2)) * ∫ y : ℝ, Real.exp (-y ^ 2) from
    integral_prod_mul_volume (fun x : ℝ => Real.pi⁻¹ * Real.exp (-x ^ 2))
      (fun y : ℝ => Real.exp (-y ^ 2))]
  rw [MeasureTheory.integral_mul_left, integral_exp_neg_sq]
  rw [mul_assoc, Real.mul_self_sqrt Real.pi_pos.le]
  exact inv_mul_cancel₀ (ne_of_gt Real.pi_pos)

/-- **C6.** For every builder state (ellipse semi-axes `a`, `b`), the
order-0 column of the design matrix at each pixel equals the correctly
normalized 2-D Gaussian — the L²-normalized order-0 Gauss-Hermite basis
function, whose squared integral over the plane is 1 — evaluated at the
transformed coordinate and divided by `a * b`, the ellipse's area
Jacobian. -/
theorem c6_order0_normalized_gaussian (npix : ℕ) (mb : ModelBuilder npix) (i : Fin npix) :
    mb.designEntry i 0 = gaussian2d (mb.xt i) (mb.yt i) / (mb.a * mb.b) ∧
    (∫ p : ℝ × ℝ, (gaussian2d p.1 p.2) ^ 2) = 1 := by
  refine ⟨?_, gaussian2d_sq_integral⟩
  have hk : evalEntry (mb.xt i) (mb.yt i) 0 =
      hermiteFunction 0 (mb.xt i) * hermiteFunction 0 (mb.yt i) := rfl
  have h0 : ∀ t : ℝ, hermiteFunction 0 t =
      (Real.sqrt (Real.sqrt Real.pi))⁻¹ * Real.exp (-(t ^ 2 / 2)) := fun t => rfl
  unfold ModelBuilder.designEntry ModelBuilder.ellipseFactor gaussian2d
  rw [hk, h0, h0, div_eq_inv_mul]
  have hpi : (Real.sqrt (Real.sqrt Real.pi))⁻¹ * (Real.sqrt (Real.sqrt Real.pi))⁻¹ =
      (Real.sqrt Real.pi)⁻¹ := by
    rw [← mul_inv, Real.mul_self_sqrt (Real.sqrt_nonneg _)]
  have hexp : Real.exp (-(mb.xt i ^ 2 / 2)) * Real.exp (-(mb.yt i ^ 2 / 2)) =
      Real.exp (-((mb.xt i ^ 2 + mb.yt i ^ 2) / 2)) := by
    rw [← Real.exp_add]
    ring_nf
  rw [← hpi, ← hexp]
  ring_nf

theorem pgauss_add (p q : Polynomial ℤ) (x : ℝ) :
    pgauss (p + q) x = pgauss p x + pgauss q x := by
  unfold pgauss
  rw [map_add]
  ring

theorem pgauss_sub (p q : Polynomial ℤ) (x : ℝ) :
    pgauss (p - q) x = pgauss p x - pgauss q x := by
  unfold pgauss
  rw [map_sub]
  ring

theorem pgauss_zero (x : ℝ) : pgauss 0 x = 0 := by
  unfold pgauss
  rw [map_zero, zero_mul]

theorem pgauss_C_mul (c : ℤ) (p : Polynomial ℤ) (x : ℝ) :
    pgauss (Polynomial.C c * p) x = (c : ℝ) * pgauss p x := by
  unfold pgauss
  rw [map_mul, Polynomial.aeval_C]
  have hc : algebraMap ℤ ℝ c = (c : ℝ) := by
    simp [algebraMap_int_eq]
  rw [hc]
  ring

theorem pgauss_hasDerivAt (q : Polynomial ℤ) (x : ℝ) :
    HasDerivAt (pgauss q)
      (pgauss (Polynomial.derivative q - Polynomial.X * q) x) x := by
  have h1 := q.hasDerivAt_aeval x
  have hinner : HasDerivAt (fun t : ℝ => -(t ^ 2 / 2)) (-x) x := by
    simpa using ((hasDerivAt_pow 2 x).div_const 2).neg
  have h2 : HasDerivAt (fun t : ℝ => Real.exp (-(t ^ 2 / 2)))
      (-x * Real.exp (-(x ^ 2 / 2))) x := by
    simpa [mul_comm] using hinner.exp
  have hval : pgauss (Polynomial.derivative q - Polynomial.X * q) x =
      Polynomial.aeval x (Polynomial.derivative q) * Real.exp (-(x ^ 2 / 2)) +
        Polynomial.aeval x q * (-x * Real.exp (-(x ^ 2 / 2))) := by
    unfold pgauss
    rw [map_sub, map_mul, Polynomial.aeval_X]
    ring
  rw [hval]
  exact h1.mul h2

theorem pgauss_integrable (q : Polynomial ℤ) :
    MeasureTheory.Integrable (pgauss q) := by
  induction q using Polynomial.induction_on' with
  | h_add p r hp hr =>
    have hfun : pgauss (p + r) = pgauss p + pgauss r := by
      funext x
      rw [pgauss_add]
      simp [Pi.add_apply]
    rw [hfun]
    exact hp.add hr
  | h_monomial n a =>
    have hbase : MeasureTheory.Integrable
        (fun x : ℝ => x ^ ((n : ℕ) : ℝ) * Real.exp (-(1 / 2 : ℝ) * x ^ 2)) :=
      integrable_rpow_mul_exp_neg_mul_sq (by norm_num)
        (lt_of_lt_of_le (by norm_num) (Nat.cast_nonneg n))
    have hbase2 : MeasureTheory.Integrable
        (fun x : ℝ => x ^ n * Real.exp (-(x ^ 2 / 2))) := by
      have harg : ∀ x : ℝ, -(1 / 2 : ℝ) * x ^ 2 = -(x ^ 2 / 2) := fun x => by ring
      simp only [Real.rpow_natCast, harg] at hbase
      exact hbase
    have hmul := hbase2.const_mul ((a : ℝ))
    have hfun : (fun x : ℝ => (a : ℝ) * (x ^ n * Real.exp (-(x ^ 2 / 2)))) =
        pgauss (Polynomial.monomial n a) := by
      funext x
      unfold pgauss
      rw [Polynomial.aeval_monomial]
      have hc : algebraMap ℤ ℝ a = (a : ℝ) := by simp [algebraMap_int_eq]
      rw [hc]
      ring
    rwa [hfun] at hmul

theorem pgauss_tendsto_atTop (q : Polynomial ℤ) :
    Filter.Tendsto (pgauss q) Filter.atTop (nhds 0) := by
  set pr : Polynomial ℝ := q.map (algebraMap ℤ ℝ) with hpr
  have haev : ∀ x : ℝ, Polynomial.aeval x q = pr.eval x := by
    intro x
    rw [Polynomial.aeval_def, Polynomial.eval₂_eq_eval_map]
  have hg : Filter.Tendsto (fun x => |pr.eval x| / Real.exp x)
      Filter.atTop (nhds 0) := by
    have h1 := pr.tendsto_div_exp_atTop.abs
    have hfun : (fun x => |pr.eval x / Real.exp x|) =
        fun x => |pr.eval x| / Real.exp x := by
      funext x
      rw [abs_div, abs_of_pos (Real.exp_pos x)]
    rw [hfun] at h1
    simpa using h1
  apply squeeze_zero_norm' ?_ hg
  filter_upwards [Filter.eventually_ge_atTop (2 : ℝ)] with x hx
  have hnorm : ‖pgauss q x‖ = |Polynomial.aeval x q| * Real.exp (-(x ^ 2 / 2)) := by
    unfold pgauss
    rw [Real.norm_eq_abs, abs_mul, abs_of_pos (Real.exp_pos _)]
  rw [hnorm, haev]
  have hexp : Real.exp (-(x ^ 2 / 2)) ≤ Real.exp (-x) :=
    Real.exp_le_exp.mpr (by nlinarith)
  calc |pr.eval x| * Real.exp (-(x ^ 2 / 2))
      ≤ |pr.eval x| * Real.exp (-x) :=
        mul_le_mul_of_nonneg_left hexp (abs_nonneg _)
    _ = |pr.eval x| / Real.exp x := by
        rw [Real.exp_neg, div_eq_mul_inv]

theorem pgauss_tendsto_atBot (q : Polynomial ℤ) :
    Filter.Tendsto (pgauss q) Filter.atBot (nhds 0) := by
  have hcomp : pgauss q =
      (pgauss (q.comp (-Polynomial.X))) ∘ (fun x : ℝ => -x) := by
    funext x
    unfold pgauss
    simp only [Function.comp_apply, Polynomial.aeval_comp, map_neg, Polynomial.aeval_X]
    rw [neg_neg]
    have harg : (-x : ℝ) ^ 2 = x ^ 2 := by ring
    rw [harg]
  rw [hcomp]
  exact (pgauss_tendsto_atTop (q.comp (-Polynomial.X))).comp Filter.tendsto_neg_atBot_atTop

theorem integral_pgauss_deriv (q : Polynomial ℤ) :
    ∫ x : ℝ, pgauss (Polynomial.derivative q - Polynomial.X * q) x = 0 := by
  have hint := pgauss_integrable (Polynomial.derivative q - Polynomial.X * q)
  have h1 : ∫ x in Set.Iic (0 : ℝ),
      pgauss (Polynomial.derivative q - Polynomial.X * q) x = pgauss q 0 - 0 :=
    MeasureTheory.integral_Iic_of_hasDerivAt_of_tendsto'
      (fun x _ => pgauss_hasDerivAt q x) hint.integrableOn (pgauss_tendsto_atBot q)
  have h2 : ∫ x in Set.Ioi (0 : ℝ),
      pgauss (Polynomial.derivative q - Polynomial.X * q) x = 0 - pgauss q 0 :=
    MeasureTheory.integral_Ioi_of_hasDerivAt_of_tendsto'
      (fun x _ => pgauss_hasDerivAt q x) hint.integrableOn (pgauss_tendsto_atTop q)
  have hsplit := MeasureTheory.integral_add_compl (measurableSet_Iic (a := (0:ℝ))) hint
  rw [Set.compl_Iic] at hsplit
  rw [← hsplit, h1, h2]
  ring

theorem derivative_hermite_succ (n : ℕ) :
    Polynomial.derivative (Polynomial.hermite (n + 1)) =
      Polynomial.C ((n : ℤ) + 1) * Polynomial.hermite n := by
  induction n with
  | zero =>
    rw [Polynomial.hermite_one, Polynomial.hermite_zero]
    simp
  | succ k ih =>
    rw [Polynomial.hermite_succ (k + 1), Polynomial.derivative_sub,
      Polynomial.derivative_mul, Polynomial.derivative_X, ih,
      Polynomial.derivative_C_mul]
    have hk : Polynomial.derivative (Polynomial.hermite k) =
        Polynomial.X * Polynomial.hermite k - Polynomial.hermite (k + 1) := by
      rw [Polynomial.hermite_succ k]
      ring
    rw [hk]
    have hC : (Polynomial.C ((k : ℤ) + 1 + 1) : Polynomial ℤ) =
        Polynomial.C ((k : ℤ) + 1) + 1 := by
      rw [map_add, map_one]
    push_cast
    rw [hC]
    ring

theorem integral_gauss_half :
    ∫ x : ℝ, Real.exp (-(x ^ 2 / 2)) = Real.sqrt (2 * Real.pi) := by
  have h := integral_gaussian (1 / 2)
  have harg : ∀ x : ℝ, -(1 / 2 : ℝ) * x ^ 2 = -(x ^ 2 / 2) := fun x => by ring
  simp only [harg] at h
  rw [h]
  have hdiv : Real.pi / (1 / 2) = 2 * Real.pi := by ring
  rw [hdiv]

theorem integral_pgauss_hermite (m : ℕ) :
    ∫ x : ℝ, pgauss (Polynomial.hermite m) x =
      if m = 0 then Real.sqrt (2 * Real.pi) else 0 := by
  cases m with
  | zero =>
    rw [if_pos rfl]
    have hpt : ∀ x : ℝ, pgauss (Polynomial.hermite 0) x = Real.exp (-(x ^ 2 / 2)) := by
      intro x
      unfold pgauss
      rw [Polynomial.hermite_zero]
      simp
    simp only [hpt]
    exact integral_gauss_half
  | succ k =>
    rw [if_neg (Nat.succ_ne_zero k)]
    have hpt : ∀ x : ℝ, pgauss (Polynomial.hermite (k + 1)) x =
        -(pgauss (Polynomial.derivative (Polynomial.hermite k) -
            Polynomial.X * Polynomial.hermite k) x) := by
      intro x
      rw [Polynomial.hermite_succ k]
      have hpoly : Polynomial.X * Polynomial.hermite k -
          Polynomial.derivative (Polynomial.hermite k) =
          -(Polynomial.derivative (Polynomial.hermite k) -
            Polynomial.X * Polynomial.hermite k) := by ring
      rw [hpoly]
      unfold pgauss
      rw [map_neg]
      ring
    simp only [hpt]
    rw [MeasureTheory.integral_neg, integral_pgauss_deriv]
    ring

theorem integral_pgauss_hermite_mul_succ (m n : ℕ) :
    ∫ x : ℝ, pgauss (Polynomial.hermite m * Polynomial.hermite (n + 1)) x =
      ∫ x : ℝ, pgauss (Polynomial.derivative (Polynomial.hermite m) *
        Polynomial.hermite n) x := by
  have h0 := integral_pgauss_deriv (Polynomial.hermite m * Polynomial.hermite n)
  have hpoly : Polynomial.derivative (Polynomial.hermite m * Polynomial.hermite n) -
      Polynomial.X * (Polynomial.hermite m * Polynomial.hermite n) =
      Polynomial.derivative (Polynomial.hermite m) * Polynomial.hermite n -
        Polynomial.hermite m * Polynomial.hermite (n + 1) := by
    rw [Polynomial.derivative_mul, Polynomial.hermite_succ n]
    ring
  rw [hpoly] at h0
  have hsub : ∀ x : ℝ, pgauss (Polynomial.derivative (Polynomial.hermite m) *
      Polynomial.hermite n - Polynomial.hermite m * Polynomial.hermite (n + 1)) x =
      pgauss (Polynomial.derivative (Polynomial.hermite m) * Polynomial.hermite n) x -
        pgauss (Polynomial.hermite m * Polynomial.hermite (n + 1)) x :=
    fun x => pgauss_sub _ _ x
  rw [MeasureTheory.integral_congr_ae (Filter.Eventually.of_forall hsub)] at h0
  rw [MeasureTheory.integral_sub (pgauss_integrable _) (pgauss_integrable _)] at h0
  linarith

theorem integral_pgauss_hermite_mul (n m : ℕ) :
    ∫ x : ℝ, pgauss (Polynomial.hermite m * Polynomial.hermite n) x =
      if m = n then ((n.factorial : ℝ)) * Real.sqrt (2 * Real.pi) else 0 := by
  induction n generalizing m with
  | zero =>
    have hone : Polynomial.hermite m * Polynomial.hermite 0 = Polynomial.hermite m := by
      rw [Polynomial.hermite_zero]
      simp
    rw [hone, integral_pgauss_hermite]
    by_cases hm : m = 0
    · rw [if_pos hm, if_pos hm]
      simp [Nat.factorial]
    · rw [if_neg hm, if_neg hm]
  | succ n ih =>
    rw [integral_pgauss_hermite_mul_succ m n]
    cases m with
    | zero =>
      have hzero : Polynomial.derivative (Polynomial.hermite 0) = 0 := by
        rw [Polynomial.hermite_zero]
        simp
      have hpt : ∀ x : ℝ, pgauss (Polynomial.derivative (Polynomial.hermite 0) *
          Polynomial.hermite n) x = 0 := by
        intro x
        rw [hzero, zero_mul, pgauss_zero]
      simp only [hpt]
      rw [MeasureTheory.integral_zero, if_neg (by omega : ¬ (0 : ℕ) = n + 1)]
    | succ k =>
      rw [derivative_hermite_succ k]
      have hpt : ∀ x : ℝ, pgauss (Polynomial.C ((k : ℤ) + 1) * Polynomial.hermite k *
          Polynomial.hermite n) x =
          ((k : ℝ) + 1) * pgauss (Polynomial.hermite k * Polynomial.hermite n) x := by
        intro x
        rw [mul_assoc, pgauss_C_mul]
        push_cast
        ring
      simp only [hpt]
      rw [MeasureTheory.integral_mul_left, ih k]
      by_cases hkn : k = n
      · subst hkn
        rw [if_pos rfl, if_pos rfl]
        rw [Nat.factorial_succ]
        push_cast
        ring
      · rw [if_neg hkn, if_neg (by omega : ¬ k + 1 = n + 1)]
        ring

theorem hermiteFunction_zero_eq (x : ℝ) :
    hermiteFunction 0 x =
      (Real.sqrt (Real.sqrt Real.pi))⁻¹ * Real.exp (-(x ^ 2 / 2)) := rfl

theorem hermiteFunction_one_eq (x : ℝ) :
    hermiteFunction 1 x = Real.sqrt 2 * x * hermiteFunction 0 x := rfl

theorem hermiteFunction_succ_succ (k : ℕ) (x : ℝ) :
    hermiteFunction (k + 2) x =
      Real.sqrt (2 / ((k : ℝ) + 2)) * x * hermiteFunction (k + 1) x -
        Real.sqrt (((k : ℝ) + 1) / ((k : ℝ) + 2)) * hermiteFunction k x := rfl

theorem hermiteNorm_succ (k : ℕ) :
    hermiteNorm (k + 1) = hermiteNorm k / Real.sqrt ((k : ℝ) + 1) := by
  unfold hermiteNorm
  have hfac : ((Nat.factorial (k + 1) : ℕ) : ℝ) =
      ((k : ℝ) + 1) * (Nat.factorial k : ℝ) := by
    rw [Nat.factorial_succ]
    push_cast
    ring
  rw [hfac, Real.sqrt_mul (by positivity), mul_inv]
  ring

theorem hermiteFunction_eq_hermite (n : ℕ) (x : ℝ) :
    hermiteFunction n x =
      hermiteNorm n * Polynomial.aeval (Real.sqrt 2 * x) (Polynomial.hermite n) *
        Real.exp (-(x ^ 2 / 2)) := by
  induction n using Nat.twoStepInduction with
  | zero =>
    rw [hermiteFunction_zero_eq, Polynomial.hermite_zero]
    unfold hermiteNorm
    simp [Nat.factorial]
  | one =>
    rw [hermiteFunction_one_eq, hermiteFunction_zero_eq, Polynomial.hermite_one]
    unfold hermiteNorm
    simp only [Polynomial.aeval_X, Nat.factorial_one, Nat.cast_one, Real.sqrt_one, inv_one,
      mul_one]
    ring
  | more k ih1 ih2 =>
    rw [hermiteFunction_succ_succ, ih1, ih2]
    have hrec : Polynomial.hermite (k + 2) =
        Polynomial.X * Polynomial.hermite (k + 1) -
          Polynomial.C ((k : ℤ) + 1) * Polynomial.hermite k := by
      rw [Polynomial.hermite_succ (k + 1), derivative_hermite_succ k]
    rw [hrec, map_sub, map_mul, map_mul, Polynomial.aeval_X, Polynomial.aeval_C]
    have hcast : algebraMap ℤ ℝ ((k : ℤ) + 1) = (k : ℝ) + 1 := by
      simp [algebraMap_int_eq]
    rw [hcast]
    have hs1 : Real.sqrt ((k : ℝ) + 1) * Real.sqrt ((k : ℝ) + 1) = (k : ℝ) + 1 :=
      Real.mul_self_sqrt (by positivity)
    have hs2ne : Real.sqrt ((k : ℝ) + 2) ≠ 0 :=
      ne_of_gt (Real.sqrt_pos.mpr (by positivity))
    have hs1ne : Real.sqrt ((k : ℝ) + 1) ≠ 0 :=
      ne_of_gt (Real.sqrt_pos.mpr (by positivity))
    have hsq2 : Real.sqrt (2 / ((k : ℝ) + 2)) =
        Real.sqrt 2 / Real.sqrt ((k : ℝ) + 2) := Real.sqrt_div (by norm_num) _
    have hsqk : Real.sqrt (((k : ℝ) + 1) / ((k : ℝ) + 2)) =
        Real.sqrt ((k : ℝ) + 1) / Real.sqrt ((k : ℝ) + 2) :=
      Real.sqrt_div (by positivity) _
    have hN2 : hermiteNorm (k + 2) = hermiteNorm (k + 1) / Real.sqrt ((k : ℝ) + 2) := by
      have h := hermiteNorm_succ (k + 1)
      have hc : ((k + 1 : ℕ) : ℝ) + 1 = (k : ℝ) + 2 := by push_cast; ring
      rw [hc] at h
      exact h
    have hNk : hermiteNorm k = hermiteNorm (k + 1) * Real.sqrt ((k : ℝ) + 1) := by
      rw [hermiteNorm_succ k]
      field_simp
    rw [hsq2, hsqk, hN2, hNk]
    set s1 := Real.sqrt ((k : ℝ) + 1) with hs1def
    rw [← hs1]
    ring

theorem hermiteFunction_orthonormal (m n : ℕ) :
    (∫ x : ℝ, hermiteFunction m x * hermiteFunction n x) =
      if m = n then 1 else 0 := by
  have hpt : ∀ x : ℝ, hermiteFunction m x * hermiteFunction n x =
      hermiteNorm m * hermiteNorm n *
        pgauss (Polynomial.hermite m * Polynomial.hermite n) (Real.sqrt 2 * x) := by
    intro x
    rw [hermiteFunction_eq_hermite m x, hermiteFunction_eq_hermite n x]
    unfold pgauss
    rw [map_mul]
    have harg : -((Real.sqrt 2 * x) ^ 2 / 2) = -(x ^ 2 / 2) + -(x ^ 2 / 2) := by
      rw [mul_pow, Real.sq_sqrt (by norm_num : (0 : ℝ) ≤ 2)]
      ring
    rw [harg, Real.exp_add]
    ring
  simp only [hpt]
  rw [MeasureTheory.integral_mul_left,
    MeasureTheory.Measure.integral_comp_mul_left
      (pgauss (Polynomial.hermite m * Polynomial.hermite n)) (Real.sqrt 2),
    integral_pgauss_hermite_mul]
  have hs2pos : (0 : ℝ) < Real.sqrt 2 := Real.sqrt_pos.mpr (by norm_num)
  by_cases hmn : m = n
  · subst hmn
    rw [if_pos rfl, if_pos rfl]
    rw [smul_eq_mul, abs_of_pos (inv_pos.mpr hs2pos)]
    unfold hermiteNorm
    have h2pi : Real.sqrt (2 * Real.pi) = Real.sqrt 2 * Real.sqrt Real.pi :=
      Real.sqrt_mul (by norm_num) _
    rw [h2pi]
    have hppos : (0 : ℝ) < Real.sqrt (Real.sqrt Real.pi) :=
      Real.sqrt_pos.mpr (Real.sqrt_pos.mpr Real.pi_pos)
    have hfpos : (0 : ℝ) < Real.sqrt ((Nat.factorial m : ℕ) : ℝ) :=
      Real.sqrt_pos.mpr (by exact_mod_cast Nat.factorial_pos m)
    have hself : Real.sqrt (Real.sqrt Real.pi) * Real.sqrt (Real.sqrt Real.pi) =
        Real.sqrt Real.pi := Real.mul_self_sqrt (Real.sqrt_nonneg _)
    have hfself : Real.sqrt ((Nat.factorial m : ℕ) : ℝ) *
        Real.sqrt ((Nat.factorial m : ℕ) : ℝ) = ((Nat.factorial m : ℕ) : ℝ) :=
      Real.mul_self_sqrt (Nat.cast_nonneg _)
    have hself2 : Real.sqrt (Real.sqrt Real.pi) ^ 2 = Real.sqrt Real.pi :=
      Real.sq_sqrt (Real.sqrt_nonneg _)
    have hfself2 : Real.sqrt ((Nat.factorial m : ℕ) : ℝ) ^ 2 =
        ((Nat.factorial m : ℕ) : ℝ) := Real.sq_sqrt (Nat.cast_nonneg _)
    field_simp
    ring_nf
    simp only [hself2, hfself2]
    ring
  · rw [if_neg hmn, if_neg hmn]
    simp

/-- **C3.** For every order `n ≥ 0`,
`computeInnerProductMatrix(n, n, 1.0, 1.0)` equals the identity matrix of
dimension `(n+1)(n+2)/2`: the entry at row `i`, column `j` is `1` when
`i = j` and `0` otherwise — same-scale, same-order Hermite-Gaussian basis
functions are orthonormal under the integral defining the matrix. -/
theorem c3_inner_product_identity (n : ℕ) :
    computeInnerProductMatrix n n 1 1 = 1 ∧
    ∀ i j : Fin (packedSize n), computeInnerProductMatrix n n 1 1 i j =
      if i = j then 1 else 0 := by
  have hentry : ∀ i j : Fin (packedSize n),
      computeInnerProductMatrix n n 1 1 i j = if i = j then 1 else 0 := by
    intro i j
    unfold computeInnerProductMatrix
    rw [Matrix.of_apply]
    have hpt : ∀ p : ℝ × ℝ,
        basis2d (unpack i.val).1 (unpack i.val).2 (1 * p.1, 1 * p.2) *
          basis2d (unpack j.val).1 (unpack j.val).2 (1 * p.1, 1 * p.2) =
        (fun u : ℝ => hermiteFunction (unpack i.val).1 u *
          hermiteFunction (unpack j.val).1 u) p.1 *
        (fun v : ℝ => hermiteFunction (unpack i.val).2 v *
          hermiteFunction (unpack j.val).2 v) p.2 := by
      intro p
      unfold basis2d
      simp only [one_mul]
      ring
    have hsplit := integral_prod_mul_volume
        (fun u : ℝ => hermiteFunction (unpack i.val).1 u *
          hermiteFunction (unpack j.val).1 u)
        (fun v : ℝ => hermiteFunction (unpack i.val).2 v *
          hermiteFunction (unpack j.val).2 v)
    rw [MeasureTheory.integral_congr_ae (Filter.Eventually.of_forall hpt), hsplit,
      hermiteFunction_orthonormal, hermiteFunction_orthonormal]
    by_cases hij : i = j
    · subst hij
      simp
    · rw [if_neg hij]
      by_cases h1 : (unpack i.val).1 = (unpack j.val).1
      · have h2 : (unpack i.val).2 ≠ (unpack j.val).2 := by
          intro h2
          apply hij
          apply Fin.ext
          have hi := indexN_unpack i.val
          rw [h1, h2, indexN_unpack j.val] at hi
          exact hi.symm
        rw [if_neg h2, mul_zero]
      · rw [if_neg h1, zero_mul]
  refine ⟨?_, hentry⟩
  ext i j
  rw [Matrix.one_apply]
  exact hentry i j

end Shapelet
